import Mathlib

/-!
# A fixed-capacity chained hashtable, shallowly embedded from `src/main.cpp`

The C++ source implements a hashtable from `uint64_t` keys to `uint64_t`
values: a power-of-two sized bucket array obtained from zero-filled memory,
one singly linked collision chain per bucket, and `lookup` / `insert` /
`erase` walking the chain of the key's bucket.

Machine integers are modelled as `Nat` with explicit reduction `% 2 ^ 64`
where 64-bit overflow can occur.  A collision chain (`Entry*` head pointer
plus `next` links) is modelled as a `List` of entries, head first.  The
bucket array is modelled as a function from bucket index to chain; the
zero-filled backing memory means every bucket starts as the empty chain.
-/

set_option autoImplicit false

namespace BuggyHashtable

/-- `2 ^ 64`, the modulus of `uint64_t` arithmetic. -/
def U64 : Nat := 2 ^ 64

/-- `hashKey` (src/main.cpp lines 12–27): the MurmurHash64A-style mixer
`h = seed ^ (8*m); k *= m; k ^= k >> 47; k *= m; h ^= k; h *= m;
h ^= h >> 47; h *= m; h ^= h >> 47`, in `uint64_t` arithmetic. -/
def hashKey (k : Nat) : Nat :=
  let m : Nat := 0xc6a4a7935bd1e995
  let h : Nat := 0x8445d61a4e774912 ^^^ ((8 * m) % U64)
  let k1 : Nat := (k * m) % U64
  let k2 : Nat := k1 ^^^ (k1 >>> 47)
  let k3 : Nat := (k2 * m) % U64
  let h1 : Nat := h ^^^ k3
  let h2 : Nat := (h1 * m) % U64
  let h3 : Nat := h2 ^^^ (h2 >>> 47)
  let h4 : Nat := (h3 * m) % U64
  h4 ^^^ (h4 >>> 47)

/-- `bw fuel n` is the bit width of `n` (number of binary digits), computed by
repeated halving, exact whenever `n < 2 ^ fuel`.  `bw 64` is the bit width of
a `uint64_t` value. -/
def bw : Nat → Nat → Nat
  | 0, _ => 0
  | fuel + 1, n => if n = 0 then 0 else bw fuel (n / 2) + 1

/-- Models `__builtin_clzl` on a `uint64_t` (src/main.cpp line 44): the number
of leading zero bits of `s` in 64-bit representation.  Like the builtin, it is
meaningful only for `1 ≤ s < 2 ^ 64` (`__builtin_clzl(0)` is undefined in C). -/
def clz64 (s : Nat) : Nat := 64 - bw 64 s

/-- `Hashtable::Entry` (src/main.cpp lines 31–36) minus the `next` pointer,
which becomes the list structure of the chain. -/
structure Entry where
  key : Nat
  value : Nat
  deriving DecidableEq, Repr

/-- One collision chain: the `Entry*` bucket head plus `next` links, head first. -/
abbrev Chain := List Entry

/-- The chain walk of `Hashtable::lookup` (src/main.cpp lines 67–70): the first
entry of the chain whose key matches, if any. -/
def chainLookup (key : Nat) : Chain → Option Entry
  | [] => none
  | e :: rest => if e.key = key then some e else chainLookup key rest

/-- The in-place update `e->value = value` (src/main.cpp line 78) performed on
the entry returned by `lookup`: the first entry with this key gets the new
value; nothing else in the chain changes. -/
def chainUpdate (key value : Nat) : Chain → Chain
  | [] => []
  | e :: rest =>
    if e.key = key then { key := e.key, value := value } :: rest
    else e :: chainUpdate key value rest

/-- The linking of src/main.cpp lines 85–95: an empty bucket gets the new entry
as its head; otherwise walk `current->next` to the last node and link the new
entry at the tail. -/
def chainAppend (e : Entry) : Chain → Chain
  | [] => [e]
  | x :: rest => x :: chainAppend e rest

/-- The unlink walk of `Hashtable::erase` (src/main.cpp lines 105–125): remove
the first entry carrying the key — head case at line 108, interior splice
`_current->next = _next` at lines 114–124 — returning whether a node was
removed together with the remaining chain. -/
def chainErase (key : Nat) : Chain → Bool × Chain
  | [] => (false, [])
  | e :: rest =>
    if e.key = key then (true, rest)
    else
      let r := chainErase key rest
      (r.1, e :: r.2)

/-- `struct Hashtable` (src/main.cpp lines 29–47).  The bucket array `ht` is a
function from bucket index to chain; `allocZeros` (line 7) zero-fills the
backing memory, so every bucket head starts null, i.e. every chain empty. -/
@[ext]
structure Hashtable where
  htSize : Nat
  mask : Nat
  ht : Nat → Chain

/-- The constructor (src/main.cpp lines 42–47):
`htSize = 1ull << ((8 * sizeof(uint64_t)) - __builtin_clzl(size))` in 64-bit
arithmetic, `mask = htSize - 1`, all buckets empty (zero-filled memory). -/
def Hashtable.construct (size : Nat) : Hashtable :=
  let hs : Nat := (1 <<< (64 - clz64 size)) % U64
  { htSize := hs, mask := hs - 1, ht := fun _ => [] }

/-- `Hashtable::lookup` (src/main.cpp lines 65–71): walk the chain of bucket
`hashKey(key) & mask`. -/
def Hashtable.lookup (h : Hashtable) (key : Nat) : Option Entry :=
  chainLookup key (h.ht (hashKey key &&& h.mask))

/-- `Hashtable::insert` (src/main.cpp lines 73–100): if `lookup` finds the key,
overwrite that entry's value in place and return `false`; otherwise append a
fresh entry at the tail of the chain of bucket `hashKey(key) & mask` and
return `true`. -/
def Hashtable.insert (h : Hashtable) (key value : Nat) : Bool × Hashtable :=
  match h.lookup key with
  | some _ =>
    let pos := hashKey key &&& h.mask
    (false,
     { h with ht := fun j => if j = pos then chainUpdate key value (h.ht j) else h.ht j })
  | none =>
    let pos := hashKey key &&& h.mask
    (true,
     { h with ht := fun j =>
         if j = pos then chainAppend { key := key, value := value } (h.ht j) else h.ht j })

/-- `Hashtable::erase` (src/main.cpp lines 102–126): unlink and delete the
first entry with this key from the chain of bucket `hashKey(key) & mask`,
reporting whether one was removed. -/
def Hashtable.erase (h : Hashtable) (key : Nat) : Bool × Hashtable :=
  let pos := hashKey key &&& h.mask
  let r := chainErase key (h.ht pos)
  (r.1, { h with ht := fun j => if j = pos then r.2 else h.ht j })

/-- A client call mutating the table: an `insert` or an `erase`. -/
inductive Op where
  | ins (key value : Nat)
  | del (key : Nat)
  deriving DecidableEq, Repr

/-- The key an operation touches. -/
def Op.key : Op → Nat
  | .ins k _ => k
  | .del k => k

/-- Apply one mutating call to the table. -/
def applyOp (h : Hashtable) : Op → Hashtable
  | .ins k v => (h.insert k v).2
  | .del k => (h.erase k).2

/-- Run a sequence of mutating calls left to right. -/
def runOps (h : Hashtable) (ops : List Op) : Hashtable :=
  ops.foldl applyOp h

/-- Number of entries carrying key `k` in a chain. -/
def countKey (k : Nat) : Chain → Nat
  | [] => 0
  | e :: rest => (if e.key = k then 1 else 0) + countKey k rest

/-- Total number of live entries of the table: the destructor (src/main.cpp
lines 51–60) walks buckets `0 ≤ i < htSize` and visits every node of each
chain. -/
def liveEntries (h : Hashtable) : Nat :=
  ((List.range h.htSize).map (fun j => (h.ht j).length)).sum

/-- `mmap`/`munmap` operate at page granularity (4096-byte pages): the number
of whole pages covering a mapping of `len` bytes. -/
def pagesOf (len : Nat) : Nat := (len + 4095) / 4096

/-- Bytes the constructor maps for the bucket array (src/main.cpp line 46):
`sizeof(uint64_t) * htSize`. -/
def bucketArrayBytes (htSize : Nat) : Nat := 8 * htSize

/-- Bytes the destructor passes to `munmap` (src/main.cpp line 62): `htSize`
— an element count, not the byte size of the mapping. -/
def destructorUnmapBytes (htSize : Nat) : Nat := htSize

/-- The destructor's per-chain delete loop (src/main.cpp lines 54–59): one
`delete` per node, following `next` before freeing. -/
def chainFrees : Chain → Nat
  | [] => 0
  | _ :: rest => chainFrees rest + 1

/-- Total number of `delete` calls the destructor performs (src/main.cpp
lines 51–60). -/
def destructorFrees (h : Hashtable) : Nat :=
  ((List.range h.htSize).map (fun j => chainFrees (h.ht j))).sum

/-- Well-formedness invariant of a table state: the mask is an in-range bucket
index bound, every entry sits in its home bucket, and no chain holds two
entries with the same key. -/
structure WF (h : Hashtable) : Prop where
  mask_lt : h.mask < h.htSize
  home : ∀ j e, e ∈ h.ht j → hashKey e.key &&& h.mask = j
  atMostOne : ∀ j k, countKey k (h.ht j) ≤ 1

/-! ## Capacity arithmetic -/

@[simp]
theorem bw_zero (fuel : Nat) : bw fuel 0 = 0 := by
  cases fuel <;> simp [bw]

theorem bw_le (fuel n : Nat) : bw fuel n ≤ fuel := by
  induction fuel generalizing n with
  | zero => simp [bw]
  | succ f ih =>
    by_cases h : n = 0
    · simp [bw, h]
    · simp only [bw, h, if_false]
      exact Nat.succ_le_succ (ih (n / 2))

theorem bw_bounds : ∀ fuel n, 1 ≤ n → n < 2 ^ fuel →
    n < 2 ^ bw fuel n ∧ 2 ^ bw fuel n ≤ 2 * n := by
  intro fuel
  induction fuel with
  | zero => intro n h1 h2; omega
  | succ f ih =>
    intro n h1 h2
    have hn : n ≠ 0 := by omega
    by_cases hsmall : n = 1
    · subst hsmall
      simp [bw]
    · have h2le : 2 ≤ n := by omega
      have hpow : (2 : Nat) ^ (f + 1) = 2 * 2 ^ f := by rw [Nat.pow_succ]; ring
      have hhalf1 : 1 ≤ n / 2 := by omega
      have hhalf2 : n / 2 < 2 ^ f := by omega
      obtain ⟨ha, hb⟩ := ih (n / 2) hhalf1 hhalf2
      have hbw : bw (f + 1) n = bw f (n / 2) + 1 := by simp [bw, hn]
      have hpow2 : (2 : Nat) ^ (bw f (n / 2) + 1) = 2 * 2 ^ bw f (n / 2) := by
        rw [Nat.pow_succ]; ring
      rw [hbw, hpow2]
      omega

theorem construct_htSize {s : Nat} (h1 : 1 ≤ s) (h2 : s < 2 ^ 63) :
    (Hashtable.construct s).htSize = 2 ^ bw 64 s := by
  have hs64 : s < 2 ^ 64 := lt_trans h2 (by norm_num)
  obtain ⟨ha, hb⟩ := bw_bounds 64 s h1 hs64
  have hlt : 2 ^ bw 64 s < 2 ^ 64 := by
    calc 2 ^ bw 64 s ≤ 2 * s := hb
    _ < 2 * 2 ^ 63 := by omega
    _ = 2 ^ 64 := by norm_num
  have hsub : 64 - clz64 s = bw 64 s := by
    have := bw_le 64 s
    simp only [clz64]
    omega
  simp only [Hashtable.construct, hsub, Nat.one_shiftLeft, U64]
  exact Nat.mod_eq_of_lt hlt

theorem construct_bounds {s : Nat} (h1 : 1 ≤ s) (h2 : s < 2 ^ 63) :
    s < (Hashtable.construct s).htSize ∧ (Hashtable.construct s).htSize ≤ 2 * s := by
  rw [construct_htSize h1 h2]
  exact bw_bounds 64 s h1 (lt_trans h2 (by norm_num))

@[simp]
theorem construct_mask (s : Nat) :
    (Hashtable.construct s).mask = (Hashtable.construct s).htSize - 1 := rfl

@[simp]
theorem construct_ht (s j : Nat) : (Hashtable.construct s).ht j = [] := rfl

theorem construct_mask_lt {s : Nat} (h1 : 1 ≤ s) (h2 : s < 2 ^ 63) :
    (Hashtable.construct s).mask < (Hashtable.construct s).htSize := by
  have := (construct_bounds h1 h2).1
  rw [construct_mask]
  omega

/-! ## Chain lemmas -/

@[simp]
theorem countKey_nil (k : Nat) : countKey k [] = 0 := rfl

@[simp]
theorem countKey_cons (k : Nat) (e : Entry) (c : Chain) :
    countKey k (e :: c) = (if e.key = k then 1 else 0) + countKey k c := rfl

theorem countKey_eq_zero_iff {k : Nat} {c : Chain} :
    countKey k c = 0 ↔ ∀ e ∈ c, e.key ≠ k := by
  induction c with
  | nil => simp
  | cons e rest ih =>
    by_cases h : e.key = k <;> simp [h, ih]

theorem chainLookup_eq_none_iff {k : Nat} {c : Chain} :
    chainLookup k c = none ↔ ∀ e ∈ c, e.key ≠ k := by
  induction c with
  | nil => simp [chainLookup]
  | cons e rest ih =>
    by_cases h : e.key = k <;> simp [chainLookup, h, ih]

theorem chainLookup_some {k : Nat} {c : Chain} {e : Entry}
    (h : chainLookup k c = some e) : e ∈ c ∧ e.key = k := by
  induction c with
  | nil => simp [chainLookup] at h
  | cons x rest ih =>
    by_cases hx : x.key = k
    · simp [chainLookup, hx] at h
      subst h
      exact ⟨List.mem_cons_self _ _, hx⟩
    · simp only [chainLookup, hx, if_false] at h
      obtain ⟨hm, hk⟩ := ih h
      exact ⟨List.mem_cons_of_mem _ hm, hk⟩

theorem chainLookup_isSome_iff {k : Nat} {c : Chain} :
    (chainLookup k c).isSome = true ↔ ∃ e ∈ c, e.key = k := by
  induction c with
  | nil => simp [chainLookup]
  | cons e rest ih =>
    by_cases h : e.key = k <;> simp [chainLookup, h, ih]

/-- `chainUpdate` rewrites one value; the key sequence of the chain is untouched. -/
theorem chainUpdate_map_key (k v : Nat) (c : Chain) :
    (chainUpdate k v c).map Entry.key = c.map Entry.key := by
  induction c with
  | nil => rfl
  | cons e rest ih =>
    by_cases h : e.key = k <;> simp [chainUpdate, h, ih]

theorem length_chainUpdate (k v : Nat) (c : Chain) :
    (chainUpdate k v c).length = c.length := by
  induction c with
  | nil => rfl
  | cons e rest ih =>
    by_cases h : e.key = k <;> simp [chainUpdate, h, ih]

theorem countKey_chainUpdate (k v k' : Nat) (c : Chain) :
    countKey k' (chainUpdate k v c) = countKey k' c := by
  induction c with
  | nil => rfl
  | cons e rest ih =>
    by_cases h : e.key = k <;> simp [chainUpdate, h, ih]

theorem mem_chainUpdate_key {k v : Nat} {c : Chain} {e' : Entry}
    (h : e' ∈ chainUpdate k v c) : ∃ e ∈ c, e'.key = e.key := by
  have hmap := chainUpdate_map_key k v c
  have : e'.key ∈ (chainUpdate k v c).map Entry.key := List.mem_map_of_mem _ h
  rw [hmap] at this
  obtain ⟨e, he, hk⟩ := List.mem_map.1 this
  exact ⟨e, he, hk.symm⟩

theorem chainLookup_chainUpdate_self {k : Nat} (v : Nat) {c : Chain}
    (h : (chainLookup k c).isSome = true) :
    chainLookup k (chainUpdate k v c) = some ⟨k, v⟩ := by
  induction c with
  | nil => simp [chainLookup] at h
  | cons e rest ih =>
    by_cases he : e.key = k
    · simp [chainUpdate, chainLookup, he]
    · simp only [chainLookup, he, if_false] at h
      simp [chainUpdate, chainLookup, he, ih h]

theorem chainLookup_chainUpdate_other {k k' : Nat} (v : Nat) (c : Chain)
    (hne : k' ≠ k) : chainLookup k' (chainUpdate k v c) = chainLookup k' c := by
  have hne' : k ≠ k' := Ne.symm hne
  induction c with
  | nil => rfl
  | cons e rest ih =>
    by_cases he : e.key = k
    · have : ¬ e.key = k' := by rw [he]; exact hne'
      simp [chainUpdate, chainLookup, he, this, hne']
    · by_cases he' : e.key = k' <;> simp [chainUpdate, chainLookup, he, he', hne, ih]

theorem chainAppend_eq (e : Entry) (c : Chain) : chainAppend e c = c ++ [e] := by
  induction c with
  | nil => rfl
  | cons x rest ih => simp [chainAppend, ih]

theorem length_chainAppend (e : Entry) (c : Chain) :
    (chainAppend e c).length = c.length + 1 := by
  rw [chainAppend_eq]; simp

theorem countKey_chainAppend (k : Nat) (e : Entry) (c : Chain) :
    countKey k (chainAppend e c) = countKey k c + (if e.key = k then 1 else 0) := by
  induction c with
  | nil => simp [chainAppend]
  | cons x rest ih =>
    simp only [chainAppend, countKey_cons, ih]
    omega

theorem mem_chainAppend {e x : Entry} {c : Chain} (h : x ∈ chainAppend e c) :
    x ∈ c ∨ x = e := by
  rw [chainAppend_eq] at h
  rcases List.mem_append.1 h with h | h
  · exact Or.inl h
  · simp at h; exact Or.inr h

theorem chainLookup_chainAppend_of_none {k : Nat} {c : Chain} {e : Entry}
    (h : chainLookup k c = none) (he : e.key = k) :
    chainLookup k (chainAppend e c) = some e := by
  induction c with
  | nil => simp [chainAppend, chainLookup, he]
  | cons x rest ih =>
    by_cases hx : x.key = k
    · simp [chainLookup, hx] at h
    · simp only [chainLookup, hx, if_false] at h
      simp [chainAppend, chainLookup, hx, ih h]

theorem chainLookup_chainAppend_other {k : Nat} {c : Chain} {e : Entry}
    (he : e.key ≠ k) : chainLookup k (chainAppend e c) = chainLookup k c := by
  induction c with
  | nil => simp [chainAppend, chainLookup, he]
  | cons x rest ih =>
    by_cases hx : x.key = k <;> simp [chainAppend, chainLookup, hx, ih]

theorem chainErase_fst (k : Nat) (c : Chain) :
    (chainErase k c).1 = (chainLookup k c).isSome := by
  induction c with
  | nil => rfl
  | cons e rest ih =>
    by_cases h : e.key = k <;> simp [chainErase, chainLookup, h, ih]

theorem chainErase_snd_of_none {k : Nat} {c : Chain}
    (h : chainLookup k c = none) : (chainErase k c).2 = c := by
  induction c with
  | nil => rfl
  | cons e rest ih =>
    by_cases he : e.key = k
    · simp [chainLookup, he] at h
    · simp only [chainLookup, he, if_false] at h
      simp [chainErase, he, ih h]

theorem chainLookup_chainErase_other {k k' : Nat} (c : Chain) (hne : k' ≠ k) :
    chainLookup k' (chainErase k c).2 = chainLookup k' c := by
  have hne' : k ≠ k' := Ne.symm hne
  induction c with
  | nil => rfl
  | cons e rest ih =>
    by_cases he : e.key = k
    · have : ¬ e.key = k' := by rw [he]; exact hne'
      simp [chainErase, chainLookup, he, this, hne']
    · by_cases he' : e.key = k' <;> simp [chainErase, chainLookup, he, he', hne, ih]

theorem mem_chainErase_snd {k : Nat} {c : Chain} {e : Entry}
    (h : e ∈ (chainErase k c).2) : e ∈ c := by
  induction c with
  | nil => simp [chainErase] at h
  | cons x rest ih =>
    by_cases hx : x.key = k
    · simp only [chainErase, hx, if_true] at h
      exact List.mem_cons_of_mem _ h
    · simp only [chainErase, hx, if_false, List.mem_cons] at h
      rcases h with h | h
      · exact h ▸ List.mem_cons_self _ _
      · exact List.mem_cons_of_mem _ (ih h)

theorem countKey_chainErase_le (k k' : Nat) (c : Chain) :
    countKey k' (chainErase k c).2 ≤ countKey k' c := by
  induction c with
  | nil => simp [chainErase]
  | cons e rest ih =>
    by_cases he : e.key = k
    · simp only [chainErase, he, if_true, countKey_cons]
      exact Nat.le_add_left _ _
    · simp only [chainErase, he, if_false, countKey_cons]
      exact Nat.add_le_add_left ih _

theorem countKey_chainErase_other {k k' : Nat} (c : Chain) (hne : k' ≠ k) :
    countKey k' (chainErase k c).2 = countKey k' c := by
  have hne' : k ≠ k' := Ne.symm hne
  induction c with
  | nil => rfl
  | cons e rest ih =>
    by_cases he : e.key = k
    · have : ¬ e.key = k' := by rw [he]; exact hne'
      simp [chainErase, he, this, hne']
    · simp [chainErase, he, ih]

/-- Erasing from a chain holding at most one entry with the key removes them all. -/
theorem chainLookup_chainErase_self {k : Nat} {c : Chain}
    (h : countKey k c ≤ 1) : chainLookup k (chainErase k c).2 = none := by
  induction c with
  | nil => rfl
  | cons e rest ih =>
    by_cases he : e.key = k
    · simp only [countKey_cons, he, if_true] at h
      have : countKey k rest = 0 := by omega
      simp only [chainErase, he, if_true]
      exact chainLookup_eq_none_iff.2 (countKey_eq_zero_iff.1 this)
    · simp only [countKey_cons, he, if_false, Nat.zero_add] at h
      simp [chainErase, chainLookup, he, ih h]

theorem length_chainErase_of_found {k : Nat} {c : Chain}
    (h : (chainErase k c).1 = true) : ((chainErase k c).2).length + 1 = c.length := by
  induction c with
  | nil => simp [chainErase] at h
  | cons e rest ih =>
    by_cases he : e.key = k
    · simp [chainErase, he]
    · simp only [chainErase, he, if_false] at h ⊢
      simp only [List.length_cons]
      rw [← ih h]

/-! ## Table-level lemmas -/

@[simp]
theorem insert_snd_htSize (h : Hashtable) (k v : Nat) :
    ((h.insert k v).2).htSize = h.htSize := by
  cases hl : h.lookup k <;> simp [Hashtable.insert, hl]

@[simp]
theorem insert_snd_mask (h : Hashtable) (k v : Nat) :
    ((h.insert k v).2).mask = h.mask := by
  cases hl : h.lookup k <;> simp [Hashtable.insert, hl]

@[simp]
theorem erase_snd_htSize (h : Hashtable) (k : Nat) :
    ((h.erase k).2).htSize = h.htSize := rfl

@[simp]
theorem erase_snd_mask (h : Hashtable) (k : Nat) :
    ((h.erase k).2).mask = h.mask := rfl

theorem insert_ht_present_pos (h : Hashtable) (k v : Nat)
    (hl : (h.lookup k).isSome = true) :
    ((h.insert k v).2).ht (hashKey k &&& h.mask)
      = chainUpdate k v (h.ht (hashKey k &&& h.mask)) := by
  obtain ⟨e, he⟩ := Option.isSome_iff_exists.1 hl
  simp [Hashtable.insert, he]

theorem insert_ht_present_other (h : Hashtable) (k v : Nat) {j : Nat}
    (hl : (h.lookup k).isSome = true) (hj : j ≠ hashKey k &&& h.mask) :
    ((h.insert k v).2).ht j = h.ht j := by
  obtain ⟨e, he⟩ := Option.isSome_iff_exists.1 hl
  simp [Hashtable.insert, he, hj]

theorem insert_ht_absent_pos (h : Hashtable) (k v : Nat)
    (hl : h.lookup k = none) :
    ((h.insert k v).2).ht (hashKey k &&& h.mask)
      = chainAppend ⟨k, v⟩ (h.ht (hashKey k &&& h.mask)) := by
  simp [Hashtable.insert, hl]

theorem insert_ht_absent_other (h : Hashtable) (k v : Nat) {j : Nat}
    (hl : h.lookup k = none) (hj : j ≠ hashKey k &&& h.mask) :
    ((h.insert k v).2).ht j = h.ht j := by
  simp [Hashtable.insert, hl, hj]

theorem erase_ht_pos (h : Hashtable) (k : Nat) :
    ((h.erase k).2).ht (hashKey k &&& h.mask)
      = (chainErase k (h.ht (hashKey k &&& h.mask))).2 := by
  simp [Hashtable.erase]

theorem erase_ht_other (h : Hashtable) (k : Nat) {j : Nat}
    (hj : j ≠ hashKey k &&& h.mask) :
    ((h.erase k).2).ht j = h.ht j := by
  simp [Hashtable.erase, hj]

theorem erase_fst (h : Hashtable) (k : Nat) :
    (h.erase k).1 = (h.lookup k).isSome := by
  simp only [Hashtable.erase, Hashtable.lookup, chainErase_fst]

theorem lookup_insert_self (h : Hashtable) (k v : Nat) :
    ((h.insert k v).2).lookup k = some ⟨k, v⟩ := by
  cases hl : h.lookup k with
  | none =>
    have hc : chainLookup k (h.ht (hashKey k &&& h.mask)) = none := hl
    simp only [Hashtable.lookup, insert_snd_mask, insert_ht_absent_pos h k v hl]
    exact chainLookup_chainAppend_of_none hc rfl
  | some e =>
    have hs : (h.lookup k).isSome = true := by simp [hl]
    have hc : (chainLookup k (h.ht (hashKey k &&& h.mask))).isSome = true := hs
    simp only [Hashtable.lookup, insert_snd_mask, insert_ht_present_pos h k v hs]
    exact chainLookup_chainUpdate_self v hc

theorem lookup_insert_other (h : Hashtable) {k k' : Nat} (v : Nat) (hne : k' ≠ k) :
    ((h.insert k v).2).lookup k' = h.lookup k' := by
  cases hl : h.lookup k with
  | none =>
    simp only [Hashtable.lookup, insert_snd_mask]
    by_cases hpos : (hashKey k' &&& h.mask) = (hashKey k &&& h.mask)
    · rw [hpos, insert_ht_absent_pos h k v hl, ← hpos]
      exact chainLookup_chainAppend_other (Ne.symm hne)
    · rw [insert_ht_absent_other h k v hl hpos]
  | some e =>
    have hs : (h.lookup k).isSome = true := by simp [hl]
    simp only [Hashtable.lookup, insert_snd_mask]
    by_cases hpos : (hashKey k' &&& h.mask) = (hashKey k &&& h.mask)
    · rw [hpos, insert_ht_present_pos h k v hs, ← hpos]
      exact chainLookup_chainUpdate_other v _ hne
    · rw [insert_ht_present_other h k v hs hpos]

theorem lookup_erase_other (h : Hashtable) {k k' : Nat} (hne : k' ≠ k) :
    ((h.erase k).2).lookup k' = h.lookup k' := by
  simp only [Hashtable.lookup, erase_snd_mask]
  by_cases hpos : (hashKey k' &&& h.mask) = (hashKey k &&& h.mask)
  · rw [hpos, erase_ht_pos h k, ← hpos]
    exact chainLookup_chainErase_other _ hne
  · rw [erase_ht_other h k hpos]

theorem erase_snd_of_absent {h : Hashtable} {k : Nat} (hl : h.lookup k = none) :
    (h.erase k).2 = h := by
  have hc : chainLookup k (h.ht (hashKey k &&& h.mask)) = none := hl
  ext j x
  · rfl
  · rfl
  · by_cases hj : j = hashKey k &&& h.mask
    · subst hj
      rw [erase_ht_pos h k, chainErase_snd_of_none hc]
    · rw [erase_ht_other h k hj]

theorem lookup_erase_self {h : Hashtable} (k : Nat) (hwf : WF h) :
    ((h.erase k).2).lookup k = none := by
  simp only [Hashtable.lookup, erase_snd_mask, erase_ht_pos h k]
  exact chainLookup_chainErase_self (hwf.atMostOne _ k)

/-! ## Preservation of the invariant -/

theorem wf_construct {s : Nat} (h1 : 1 ≤ s) (h2 : s < 2 ^ 63) :
    WF (Hashtable.construct s) := by
  refine ⟨construct_mask_lt h1 h2, ?_, ?_⟩
  · intro j e he
    simp at he
  · intro j k
    simp

theorem wf_insert {h : Hashtable} (hwf : WF h) (k v : Nat) :
    WF (h.insert k v).2 := by
  cases hl : h.lookup k with
  | some e =>
    have hs : (h.lookup k).isSome = true := by simp [hl]
    refine ⟨?_, ?_, ?_⟩
    · simp [hwf.mask_lt]
    · intro j e' he'
      simp only [insert_snd_mask]
      by_cases hj : j = hashKey k &&& h.mask
      · subst hj
        rw [insert_ht_present_pos h k v hs] at he'
        obtain ⟨e0, he0, hk0⟩ := mem_chainUpdate_key he'
        rw [hk0]
        exact hwf.home _ e0 he0
      · rw [insert_ht_present_other h k v hs hj] at he'
        exact hwf.home _ e' he'
    · intro j k'
      by_cases hj : j = hashKey k &&& h.mask
      · subst hj
        rw [insert_ht_present_pos h k v hs, countKey_chainUpdate]
        exact hwf.atMostOne _ k'
      · rw [insert_ht_present_other h k v hs hj]
        exact hwf.atMostOne _ k'
  | none =>
    refine ⟨?_, ?_, ?_⟩
    · simp [hwf.mask_lt]
    · intro j e' he'
      simp only [insert_snd_mask]
      by_cases hj : j = hashKey k &&& h.mask
      · subst hj
        rw [insert_ht_absent_pos h k v hl] at he'
        rcases mem_chainAppend he' with hm | hm
        · exact hwf.home _ e' hm
        · rw [hm]
      · rw [insert_ht_absent_other h k v hl hj] at he'
        exact hwf.home _ e' he'
    · intro j k'
      by_cases hj : j = hashKey k &&& h.mask
      · subst hj
        rw [insert_ht_absent_pos h k v hl, countKey_chainAppend]
        by_cases hk' : k = k'
        · subst hk'
          have hzero : countKey k (h.ht (hashKey k &&& h.mask)) = 0 :=
            countKey_eq_zero_iff.2 (chainLookup_eq_none_iff.1 hl)
          simp [hzero]
        · have hkk : ¬ (⟨k, v⟩ : Entry).key = k' := hk'
          rw [if_neg hkk, Nat.add_zero]
          exact hwf.atMostOne _ k'
      · rw [insert_ht_absent_other h k v hl hj]
        exact hwf.atMostOne _ k'

theorem wf_erase {h : Hashtable} (hwf : WF h) (k : Nat) :
    WF (h.erase k).2 := by
  refine ⟨hwf.mask_lt, ?_, ?_⟩
  · intro j e' he'
    by_cases hj : j = hashKey k &&& h.mask
    · subst hj
      rw [erase_ht_pos h k] at he'
      exact hwf.home _ e' (mem_chainErase_snd he')
    · rw [erase_ht_other h k hj] at he'
      exact hwf.home _ e' he'
  · intro j k'
    by_cases hj : j = hashKey k &&& h.mask
    · subst hj
      rw [erase_ht_pos h k]
      exact (countKey_chainErase_le k k' _).trans (hwf.atMostOne _ k')
    · rw [erase_ht_other h k hj]
      exact hwf.atMostOne _ k'

theorem wf_applyOp {h : Hashtable} (hwf : WF h) (op : Op) : WF (applyOp h op) := by
  cases op with
  | ins k v => exact wf_insert hwf k v
  | del k => exact wf_erase hwf k

@[simp]
theorem runOps_nil (h : Hashtable) : runOps h [] = h := rfl

@[simp]
theorem runOps_cons (h : Hashtable) (op : Op) (ops : List Op) :
    runOps h (op :: ops) = runOps (applyOp h op) ops := rfl

theorem wf_runOps {h : Hashtable} (hwf : WF h) (ops : List Op) :
    WF (runOps h ops) := by
  induction ops generalizing h with
  | nil => exact hwf
  | cons op ops ih => exact ih (wf_applyOp hwf op)

@[simp]
theorem applyOp_htSize (h : Hashtable) (op : Op) : (applyOp h op).htSize = h.htSize := by
  cases op <;> simp [applyOp]

@[simp]
theorem applyOp_mask (h : Hashtable) (op : Op) : (applyOp h op).mask = h.mask := by
  cases op <;> simp [applyOp]

@[simp]
theorem runOps_htSize (h : Hashtable) (ops : List Op) :
    (runOps h ops).htSize = h.htSize := by
  induction ops generalizing h with
  | nil => rfl
  | cons op ops ih => simp [ih]

@[simp]
theorem runOps_mask (h : Hashtable) (ops : List Op) :
    (runOps h ops).mask = h.mask := by
  induction ops generalizing h with
  | nil => rfl
  | cons op ops ih => simp [ih]

/-- Table states the client can reach: any sequence of `insert` / `erase` calls
on a freshly constructed table of a representable requested size. -/
def Reachable (h : Hashtable) : Prop :=
  ∃ s ops, 1 ≤ s ∧ s < 2 ^ 63 ∧ h = runOps (Hashtable.construct s) ops

theorem reachable_wf {h : Hashtable} (hr : Reachable h) : WF h := by
  obtain ⟨s, ops, h1, h2, rfl⟩ := hr
  exact wf_runOps (wf_construct h1 h2) ops

/-! ## Entry counting -/

theorem chainFrees_eq_length (c : Chain) : chainFrees c = c.length := by
  induction c with
  | nil => rfl
  | cons e rest ih => simp [chainFrees, ih]

/-- The destructor's delete loop visits every node of every in-range bucket
exactly once: the total number of `delete` calls is the number of live entries. -/
theorem destructorFrees_eq_liveEntries (h : Hashtable) :
    destructorFrees h = liveEntries h := by
  simp only [destructorFrees, liveEntries]
  congr 1
  exact List.map_congr_left (fun j _ => chainFrees_eq_length (h.ht j))

theorem sum_map_range_congr {f g : Nat → Nat} {n : Nat} (h : ∀ j, j < n → f j = g j) :
    ((List.range n).map f).sum = ((List.range n).map g).sum := by
  congr 1
  exact List.map_congr_left (fun j hj => h j (List.mem_range.1 hj))

theorem sum_map_range_add_one {f g : Nat → Nat} {n pos : Nat} (hpos : pos < n)
    (hother : ∀ j, j ≠ pos → g j = f j) (hp : g pos = f pos + 1) :
    ((List.range n).map g).sum = ((List.range n).map f).sum + 1 := by
  induction n with
  | zero => omega
  | succ n ih =>
    rw [List.range_succ]
    simp only [List.map_append, List.sum_append, List.map_cons, List.map_nil,
      List.sum_cons, List.sum_nil]
    by_cases hn : pos = n
    · subst hn
      have heq : ((List.range pos).map g).sum = ((List.range pos).map f).sum :=
        sum_map_range_congr (fun j hj => (hother j (by omega)).symm) |>.symm
      rw [heq, hp]
      omega
    · have hlt : pos < n := by omega
      rw [ih hlt, hother n (fun heq => hn heq.symm)]
      omega

theorem liveEntries_insert_present {h : Hashtable} {k : Nat} (v : Nat)
    (hl : (h.lookup k).isSome = true) :
    liveEntries (h.insert k v).2 = liveEntries h := by
  simp only [liveEntries, insert_snd_htSize]
  apply sum_map_range_congr
  intro j _
  by_cases hjp : j = hashKey k &&& h.mask
  · subst hjp
    rw [insert_ht_present_pos h k v hl, length_chainUpdate]
  · rw [insert_ht_present_other h k v hl hjp]

theorem length_insert_present (h : Hashtable) (k v : Nat)
    (hl : (h.lookup k).isSome = true) (j : Nat) :
    (((h.insert k v).2).ht j).length = (h.ht j).length := by
  by_cases hjp : j = hashKey k &&& h.mask
  · subst hjp
    rw [insert_ht_present_pos h k v hl, length_chainUpdate]
  · rw [insert_ht_present_other h k v hl hjp]

theorem liveEntries_insert_absent {h : Hashtable} {k : Nat} (v : Nat)
    (hl : h.lookup k = none) (hm : h.mask < h.htSize) :
    liveEntries (h.insert k v).2 = liveEntries h + 1 := by
  simp only [liveEntries, insert_snd_htSize]
  have hpos : (hashKey k &&& h.mask) < h.htSize :=
    lt_of_le_of_lt Nat.and_le_right hm
  apply sum_map_range_add_one hpos
  · intro j hj
    rw [insert_ht_absent_other h k v hl hj]
  · rw [insert_ht_absent_pos h k v hl, length_chainAppend]

/-! ## Frame lemmas over call sequences -/

theorem lookup_applyOp_other {h : Hashtable} {op : Op} {k : Nat}
    (hne : op.key ≠ k) : (applyOp h op).lookup k = h.lookup k := by
  cases op with
  | ins a v => exact lookup_insert_other h v (Ne.symm hne)
  | del a => exact lookup_erase_other h (Ne.symm hne)

theorem lookup_runOps_avoid {h : Hashtable} {ops : List Op} {k : Nat}
    (havoid : ∀ op ∈ ops, op.key ≠ k) :
    (runOps h ops).lookup k = h.lookup k := by
  induction ops generalizing h with
  | nil => rfl
  | cons op ops ih =>
    rw [runOps_cons, ih (fun o ho => havoid o (List.mem_cons_of_mem _ ho)),
      lookup_applyOp_other (havoid op (List.mem_cons_self _ _))]

/-! ## Claims -/

/-- C1, counterexample: constructing with requested size 8 — already a power of
two — yields internal capacity 16, not the smallest power of two ≥ 8, which is
8 itself.  So the capacity is not the smallest power of two ≥ the requested
size. -/
theorem construct_eight_not_min_pow_ge :
    (Hashtable.construct 8).htSize = 16 ∧ (Hashtable.construct 8).htSize ≠ 8 := by
  decide

/-- C1 (amended): for every requested size `s` with `1 ≤ s < 2^63`, the
internal capacity is the smallest power of two STRICTLY GREATER than `s`: the
capacity is a power of two, it exceeds `s`, and every power of two exceeding
`s` is at least the capacity.  (For `s` a power of two this gives `2*s`,
not `s`.) -/
theorem construct_min_pow_gt (s : Nat) (h1 : 1 ≤ s) (h2 : s < 2 ^ 63) :
    (∃ e, (Hashtable.construct s).htSize = 2 ^ e) ∧
    s < (Hashtable.construct s).htSize ∧
    (∀ e, s < 2 ^ e → (Hashtable.construct s).htSize ≤ 2 ^ e) := by
  obtain ⟨hlt, hle⟩ := construct_bounds h1 h2
  refine ⟨⟨bw 64 s, construct_htSize h1 h2⟩, hlt, ?_⟩
  intro e he
  rw [construct_htSize h1 h2]
  rw [construct_htSize h1 h2] at hle
  by_contra hc
  push_neg at hc
  have hee : e < bw 64 s := (Nat.pow_lt_pow_iff_right (by norm_num)).1 hc
  have hpe : (2 : Nat) ^ (e + 1) ≤ 2 ^ bw 64 s :=
    Nat.pow_le_pow_right (by norm_num) hee
  have hp1 : (2 : Nat) ^ (e + 1) = 2 * 2 ^ e := by rw [Nat.pow_succ]; ring
  omega

/-- Witness for C1 (amended) at `s = 5`: the capacity is 8, the least power of
two strictly above 5. -/
theorem construct_min_pow_gt_witness :
    1 ≤ 5 ∧ 5 < 2 ^ 63 ∧
    ((∃ e, (Hashtable.construct 5).htSize = 2 ^ e) ∧
     5 < (Hashtable.construct 5).htSize ∧
     (∀ e, 5 < 2 ^ e → (Hashtable.construct 5).htSize ≤ 2 ^ e)) :=
  ⟨by norm_num, by norm_num, construct_min_pow_gt 5 (by norm_num) (by norm_num)⟩

/-- C2: the destructor's delete loop frees exactly the live entries, one
`delete` per node; but the bucket array is NOT entirely released.  At the
test driver's own requested size 837 the bucket count is 1024, so the
constructor maps `sizeof(uint64_t) * htSize = 8192` bytes (two 4096-byte
pages) while the destructor passes only `htSize = 1024` bytes to `munmap`
(one page): part of the bucket array stays mapped. -/
theorem destructor_leaks_bucket_array :
    (∀ h : Hashtable, destructorFrees h = liveEntries h) ∧
    (Hashtable.construct 837).htSize = 1024 ∧
    pagesOf (destructorUnmapBytes (Hashtable.construct 837).htSize)
      < pagesOf (bucketArrayBytes (Hashtable.construct 837).htSize) :=
  ⟨destructorFrees_eq_liveEntries, by decide, by decide⟩

/-- C3: after `insert(k, v)`, `lookup k` returns the entry `⟨k, v⟩`, and keeps
returning it across any sequence of inserts and erases that touch only other
keys. -/
theorem insert_lookup_persists (h : Hashtable) (k v : Nat) (ops : List Op)
    (havoid : ∀ op ∈ ops, op.key ≠ k) :
    (runOps ((h.insert k v).2) ops).lookup k = some ⟨k, v⟩ := by
  rw [lookup_runOps_avoid havoid, lookup_insert_self]

/-- Witness for C3: insert key 0 with value 42, then insert and erase key 1;
key 0 still looks up to value 42. -/
theorem insert_lookup_persists_witness :
    (∀ op ∈ [Op.ins 1 7, Op.del 1], op.key ≠ 0) ∧
    (runOps (((Hashtable.construct 1).insert 0 42).2) [Op.ins 1 7, Op.del 1]).lookup 0
      = some ⟨0, 42⟩ :=
  ⟨by decide,
   insert_lookup_persists (Hashtable.construct 1) 0 42 [Op.ins 1 7, Op.del 1] (by decide)⟩

/-- C4: in a reachable table state, inserting a present key returns `false`
("updated"), overwrites the stored value, allocates no entry (every bucket
keeps its chain length) and keeps the live-entry count; inserting an absent
key returns `true` and grows the live-entry count by exactly one. -/
theorem insert_update_semantics (h : Hashtable) (k v : Nat) (hr : Reachable h) :
    ((h.lookup k).isSome = true →
      (h.insert k v).1 = false ∧
      ((h.insert k v).2).lookup k = some ⟨k, v⟩ ∧
      (∀ j, (((h.insert k v).2).ht j).length = (h.ht j).length) ∧
      liveEntries (h.insert k v).2 = liveEntries h) ∧
    ((h.lookup k).isSome = false →
      (h.insert k v).1 = true ∧
      liveEntries (h.insert k v).2 = liveEntries h + 1) := by
  constructor
  · intro hs
    obtain ⟨e, he⟩ := Option.isSome_iff_exists.1 hs
    exact ⟨by simp [Hashtable.insert, he], lookup_insert_self h k v,
      length_insert_present h k v hs, liveEntries_insert_present v hs⟩
  · intro hn
    have hl : h.lookup k = none := by
      cases hq : h.lookup k
      · rfl
      · rw [hq] at hn; simp at hn
    exact ⟨by simp [Hashtable.insert, hl],
      liveEntries_insert_absent v hl (reachable_wf hr).mask_lt⟩

/-- Witness for C4: in the reachable table `{0 ↦ 1}` of capacity 2,
re-inserting key 0 with value 42 reports "updated", overwrites, and keeps
every bucket's length and the entry count. -/
theorem insert_update_semantics_witness :
    Reachable (runOps (Hashtable.construct 1) [Op.ins 0 1]) ∧
    (((runOps (Hashtable.construct 1) [Op.ins 0 1]).lookup 0).isSome = true) ∧
    (((runOps (Hashtable.construct 1) [Op.ins 0 1]).insert 0 42).1 = false ∧
     (((runOps (Hashtable.construct 1) [Op.ins 0 1]).insert 0 42).2).lookup 0
        = some ⟨0, 42⟩ ∧
     (∀ j, ((((runOps (Hashtable.construct 1) [Op.ins 0 1]).insert 0 42).2).ht j).length
        = ((runOps (Hashtable.construct 1) [Op.ins 0 1]).ht j).length) ∧
     liveEntries ((runOps (Hashtable.construct 1) [Op.ins 0 1]).insert 0 42).2
       = liveEntries (runOps (Hashtable.construct 1) [Op.ins 0 1])) :=
  ⟨⟨1, [Op.ins 0 1], by norm_num, by norm_num, rfl⟩, by decide,
   (insert_update_semantics (runOps (Hashtable.construct 1) [Op.ins 0 1]) 0 42
      ⟨1, [Op.ins 0 1], by norm_num, by norm_num, rfl⟩).1 (by decide)⟩

/-- C5: `erase` returns true exactly when the key is present; erasing a
present key succeeds once and immediately erasing it again returns false;
erasing an absent key returns false and leaves the table unchanged. -/
theorem erase_semantics (h : Hashtable) (k : Nat) (hr : Reachable h) :
    ((h.erase k).1 = (h.lookup k).isSome) ∧
    ((h.lookup k).isSome = true →
      (h.erase k).1 = true ∧ (((h.erase k).2).erase k).1 = false) ∧
    ((h.lookup k).isSome = false →
      (h.erase k).1 = false ∧ (h.erase k).2 = h) := by
  refine ⟨erase_fst h k, ?_, ?_⟩
  · intro hs
    refine ⟨by rw [erase_fst]; exact hs, ?_⟩
    rw [erase_fst, lookup_erase_self k (reachable_wf hr)]
    rfl
  · intro hn
    have hl : h.lookup k = none := by
      cases hq : h.lookup k
      · rfl
      · rw [hq] at hn; simp at hn
    exact ⟨by rw [erase_fst, hl]; rfl, erase_snd_of_absent hl⟩

/-- Witness for C5: in the reachable table `{0 ↦ 1}`, erasing key 0 returns
true, and erasing it again immediately returns false. -/
theorem erase_semantics_witness :
    Reachable (runOps (Hashtable.construct 1) [Op.ins 0 1]) ∧
    (((runOps (Hashtable.construct 1) [Op.ins 0 1]).lookup 0).isSome = true) ∧
    ((runOps (Hashtable.construct 1) [Op.ins 0 1]).erase 0).1 = true ∧
    ((((runOps (Hashtable.construct 1) [Op.ins 0 1]).erase 0).2).erase 0).1 = false :=
  ⟨⟨1, [Op.ins 0 1], by norm_num, by norm_num, rfl⟩, by decide,
   (erase_semantics (runOps (Hashtable.construct 1) [Op.ins 0 1]) 0
      ⟨1, [Op.ins 0 1], by norm_num, by norm_num, rfl⟩).2.1 (by decide)⟩

/-- C6: erasing one key never changes the lookup result of a different,
present key — in particular not when both keys live in the same bucket's
chain. -/
theorem erase_no_cross_interference (h : Hashtable) (k1 k2 : Nat) (e : Entry)
    (hne : k1 ≠ k2) (hp : h.lookup k2 = some e) :
    ((h.erase k1).2).lookup k2 = some e := by
  rw [lookup_erase_other h (Ne.symm hne)]
  exact hp

/-- Witness for C6 with a forced collision: keys 1 and 2 both hash into
bucket 0 of the capacity-2 table; after inserting both, erasing key 2 leaves
key 1 present with its value. -/
theorem erase_no_cross_interference_witness :
    hashKey 1 &&& 1 = hashKey 2 &&& 1 ∧
    (2 : Nat) ≠ 1 ∧
    (runOps (Hashtable.construct 1) [Op.ins 1 10, Op.ins 2 20]).lookup 1
      = some ⟨1, 10⟩ ∧
    (((runOps (Hashtable.construct 1) [Op.ins 1 10, Op.ins 2 20]).erase 2).2).lookup 1
      = some ⟨1, 10⟩ :=
  ⟨by decide, by decide, by decide,
   erase_no_cross_interference (runOps (Hashtable.construct 1) [Op.ins 1 10, Op.ins 2 20])
     2 1 ⟨1, 10⟩ (by decide) (by decide)⟩

/-- C7: in every reachable table state, at most one live entry with a given
key exists in the whole table — the key's home bucket holds at most one entry
with that key, and every other bucket holds none. -/
theorem key_unique (h : Hashtable) (k : Nat) (hr : Reachable h) :
    (∀ j, countKey k (h.ht j) ≤ 1) ∧
    (∀ j, j ≠ hashKey k &&& h.mask → countKey k (h.ht j) = 0) := by
  have hwf := reachable_wf hr
  refine ⟨fun j => hwf.atMostOne j k, fun j hj => ?_⟩
  by_contra hc
  have hex : ∃ e ∈ h.ht j, e.key = k := by
    by_contra hno
    push_neg at hno
    exact hc (countKey_eq_zero_iff.2 hno)
  obtain ⟨e, he, hk⟩ := hex
  have hhome := hwf.home j e he
  rw [hk] at hhome
  exact hj hhome.symm

/-- Witness for C7: after inserting key 0 twice and key 4 once into the
capacity-2 table, every bucket holds at most one entry with key 0 and only
its home bucket holds any. -/
theorem key_unique_witness :
    Reachable (runOps (Hashtable.construct 1) [Op.ins 0 1, Op.ins 0 2, Op.ins 4 3]) ∧
    ((∀ j, countKey 0
        ((runOps (Hashtable.construct 1) [Op.ins 0 1, Op.ins 0 2, Op.ins 4 3]).ht j) ≤ 1) ∧
     (∀ j, j ≠ hashKey 0 &&&
        (runOps (Hashtable.construct 1) [Op.ins 0 1, Op.ins 0 2, Op.ins 4 3]).mask →
        countKey 0
          ((runOps (Hashtable.construct 1) [Op.ins 0 1, Op.ins 0 2, Op.ins 4 3]).ht j) = 0)) :=
  ⟨⟨1, [Op.ins 0 1, Op.ins 0 2, Op.ins 4 3], by norm_num, by norm_num, rfl⟩,
   key_unique (runOps (Hashtable.construct 1) [Op.ins 0 1, Op.ins 0 2, Op.ins 4 3]) 0
     ⟨1, [Op.ins 0 1, Op.ins 0 2, Op.ins 4 3], by norm_num, by norm_num, rfl⟩⟩

/-- C8: inserting a new key appends its entry at the tail of its bucket's
chain and touches no other bucket; updating an existing key changes no
chain's key sequence (so the entry keeps its position) and touches no other
bucket. -/
theorem chain_order (h : Hashtable) (k v : Nat) :
    (h.lookup k = none →
      ((h.insert k v).2).ht (hashKey k &&& h.mask)
        = h.ht (hashKey k &&& h.mask) ++ [⟨k, v⟩] ∧
      (∀ j, j ≠ hashKey k &&& h.mask → ((h.insert k v).2).ht j = h.ht j)) ∧
    ((h.lookup k).isSome = true →
      (∀ j, (((h.insert k v).2).ht j).map Entry.key = (h.ht j).map Entry.key) ∧
      (∀ j, j ≠ hashKey k &&& h.mask → ((h.insert k v).2).ht j = h.ht j)) := by
  constructor
  · intro hl
    refine ⟨?_, fun j hj => insert_ht_absent_other h k v hl hj⟩
    rw [insert_ht_absent_pos h k v hl, chainAppend_eq]
  · intro hs
    refine ⟨fun j => ?_, fun j hj => insert_ht_present_other h k v hs hj⟩
    by_cases hj : j = hashKey k &&& h.mask
    · subst hj
      rw [insert_ht_present_pos h k v hs, chainUpdate_map_key]
    · rw [insert_ht_present_other h k v hs hj]

/-- Witness for C8 on the table `{1 ↦ 10}` of capacity 2: inserting the new
colliding key 2 appends at the tail of bucket 0's chain, and updating key 1
preserves every chain's key sequence. -/
theorem chain_order_witness :
    ((runOps (Hashtable.construct 1) [Op.ins 1 10]).lookup 2 = none ∧
     (((runOps (Hashtable.construct 1) [Op.ins 1 10]).insert 2 5).2).ht
         (hashKey 2 &&& (runOps (Hashtable.construct 1) [Op.ins 1 10]).mask)
       = (runOps (Hashtable.construct 1) [Op.ins 1 10]).ht
           (hashKey 2 &&& (runOps (Hashtable.construct 1) [Op.ins 1 10]).mask)
         ++ [⟨2, 5⟩]) ∧
    (((runOps (Hashtable.construct 1) [Op.ins 1 10]).lookup 1).isSome = true ∧
     (∀ j, ((((runOps (Hashtable.construct 1) [Op.ins 1 10]).insert 1 7).2).ht j).map Entry.key
        = ((runOps (Hashtable.construct 1) [Op.ins 1 10]).ht j).map Entry.key)) :=
  ⟨⟨by decide,
    ((chain_order (runOps (Hashtable.construct 1) [Op.ins 1 10]) 2 5).1 (by decide)).1⟩,
   ⟨by decide,
    ((chain_order (runOps (Hashtable.construct 1) [Op.ins 1 10]) 1 7).2 (by decide)).1⟩⟩

/-- C9: for `1 ≤ s < 2^63` the capacity is a power of two and at least `s`;
and when `s` is itself a power of two, the capacity is `2 * s` — the next
power of two strictly above `s`, not `s` itself. -/
theorem construct_pow_two_ge (s : Nat) (h1 : 1 ≤ s) (h2 : s < 2 ^ 63) :
    (∃ e, (Hashtable.construct s).htSize = 2 ^ e) ∧
    s ≤ (Hashtable.construct s).htSize ∧
    (∀ a, s = 2 ^ a →
      (Hashtable.construct s).htSize = 2 * s ∧ (Hashtable.construct s).htSize ≠ s) := by
  obtain ⟨hlt, hle⟩ := construct_bounds h1 h2
  refine ⟨⟨bw 64 s, construct_htSize h1 h2⟩, le_of_lt hlt, ?_⟩
  intro a ha
  rw [construct_htSize h1 h2] at hlt hle ⊢
  have hlow : (2 : Nat) ^ a < 2 ^ bw 64 s := by rw [← ha]; exact hlt
  have hup : (2 : Nat) ^ bw 64 s ≤ 2 ^ (a + 1) := by
    rw [Nat.pow_succ, Nat.mul_comm, ← ha]
    exact hle
  have ha1 : a < bw 64 s := (Nat.pow_lt_pow_iff_right (by norm_num)).1 hlow
  have ha2 : bw 64 s ≤ a + 1 := (Nat.pow_le_pow_iff_right (by norm_num)).1 hup
  have hae : bw 64 s = a + 1 := by omega
  rw [hae, Nat.pow_succ, Nat.mul_comm, ← ha]
  omega

/-- Witness for C9 at the exact power of two `s = 4`: the capacity is 8,
twice the requested size. -/
theorem construct_pow_two_ge_witness :
    1 ≤ 4 ∧ 4 < 2 ^ 63 ∧
    ((∃ e, (Hashtable.construct 4).htSize = 2 ^ e) ∧
     4 ≤ (Hashtable.construct 4).htSize ∧
     (∀ a, 4 = 2 ^ a →
       (Hashtable.construct 4).htSize = 2 * 4 ∧ (Hashtable.construct 4).htSize ≠ 4)) :=
  ⟨by norm_num, by norm_num, construct_pow_two_ge 4 (by norm_num) (by norm_num)⟩

/-- C10: in every reachable table, for every key the computed bucket index
`hashKey(k) & mask` is strictly below the bucket count `htSize`, so the
bucket-array accesses of `lookup`, `insert` and `erase` stay in bounds. -/
theorem bucket_index_in_bounds (s : Nat) (ops : List Op) (k : Nat)
    (h1 : 1 ≤ s) (h2 : s < 2 ^ 63) :
    hashKey k &&& (runOps (Hashtable.construct s) ops).mask
      < (runOps (Hashtable.construct s) ops).htSize := by
  rw [runOps_mask, runOps_htSize]
  exact lt_of_le_of_lt Nat.and_le_right (construct_mask_lt h1 h2)

/-- Witness for C10 at `s = 1`, no operations, key 0. -/
theorem bucket_index_in_bounds_witness :
    1 ≤ 1 ∧ 1 < 2 ^ 63 ∧
    hashKey 0 &&& (runOps (Hashtable.construct 1) []).mask
      < (runOps (Hashtable.construct 1) []).htSize :=
  ⟨by norm_num, by norm_num,
   bucket_index_in_bounds 1 [] 0 (by norm_num) (by norm_num)⟩

end BuggyHashtable
